import Mathlib

/-!
Verification of the approximation-scheme engine specification of the OpenMDAO
derivative-computation core, together with the ScipyOptimizeDriver gradient
callback (`openmdao/drivers/scipy_optimizer.py`).

The approximation engine itself (StepPolicy, PerturbationPlan, the finite
difference and complex step engines, RelevanceFilter, JacobianAssembler) is not
part of the source tree available here; only its test suite is.  Those
components are therefore modelled from the specification text (each such
definition carries a doc comment starting with `Modelled from the spec:`).
The ScipyOptimizeDriver gradient callback is embedded from the source file
`openmdao/drivers/scipy_optimizer.py` directly.

All numeric state is modelled with exact rational arithmetic.
-/

namespace OpenMDAO

/-! ## StepPolicy (spec 4.1) -/

/-- Modelled from the spec: the valid step_calc modes of the StepPolicy
(spec 4.1); the engine source is missing from the tree, so the policy is
modelled from the specification text. -/
def validStepCalcs : List String := ["abs", "rel", "rel_legacy", "rel_avg", "rel_element"]

/-- Modelled from the spec: the InvalidConfiguration error of the error
taxonomy (spec 7), carrying a human readable message. -/
inductive ConfigError where
  | invalidConfiguration : String → ConfigError
deriving DecidableEq

/-- Modelled from the spec: error message for an unknown step_calc mode; the
spec requires the message to list the valid set (spec 4.1). -/
def stepCalcErrorMsg (mode : String) : String :=
  "step_calc " ++ mode ++ " is not a valid setting; must be one of: " ++
    String.intercalate ", " validStepCalcs

/-- One-norm of a nominal-value vector.  The spec does not pin down which norm
the rel mode uses; any norm vanishes exactly on the zero vector, which is the
property the step-floor claims depend on. -/
def l1norm (v : List ℚ) : ℚ := (v.map (fun x => |x|)).sum

/-- Average of the absolute values of the entries of a vector. -/
def avgAbs (v : List ℚ) : ℚ := l1norm v / v.length

/-- Modelled from the spec: StepPolicy.compute_step (spec 4.1).
abs broadcasts the base step; rel (a.k.a. rel_legacy) scales the base step by
the norm of the nominal vector with the minimum_step floor; rel_avg uses the
average absolute value with the floor; rel_element sizes one step per entry
with the floor applied per entry; an unknown mode is an InvalidConfiguration
error listing the valid set. -/
def computeStep (mode : String) (v : List ℚ) (base minStep : ℚ) :
    Except ConfigError (List ℚ) :=
  if mode = "abs" then .ok (v.map (fun _ => base))
  else if mode = "rel" ∨ mode = "rel_legacy" then
    .ok (v.map (fun _ => base * max (l1norm v) minStep))
  else if mode = "rel_avg" then
    .ok (v.map (fun _ => base * max (avgAbs v) minStep))
  else if mode = "rel_element" then
    .ok (v.map (fun x => base * max (|x|) minStep))
  else .error (.invalidConfiguration (stepCalcErrorMsg mode))

/-! ## FiniteDifferenceEngine (spec 4.4) -/

/-- Modelled from the spec: forward difference (f(x+h) - f(x)) / h. -/
def fdForward (f : ℚ → ℚ) (x h : ℚ) : ℚ := (f (x + h) - f x) / h

/-- Modelled from the spec: central difference (f(x+h) - f(x-h)) / (2h). -/
def fdCentral (f : ℚ → ℚ) (x h : ℚ) : ℚ := (f (x + h) - f (x - h)) / (2 * h)

/-- The smooth test function f(x) = 0.5 * x^2 used by the step-floor and
rel_element accuracy properties (spec 8.3, 8.4). -/
def halfSq (x : ℚ) : ℚ := x ^ 2 / 2

/-- Diagonal of the forward-difference Jacobian of an elementwise function,
with one step per entry. -/
def fdDiagForward (f : ℚ → ℚ) (xs hs : List ℚ) : List ℚ :=
  (xs.zip hs).map (fun p => fdForward f p.1 p.2)

/-- Diagonal of the central-difference Jacobian of an elementwise function,
with one step per entry. -/
def fdDiagCentral (f : ℚ → ℚ) (xs hs : List ℚ) : List ℚ :=
  (xs.zip hs).map (fun p => fdCentral f p.1 p.2)

/-- Extract the step vector from a successful step computation. -/
def stepsOf (r : Except ConfigError (List ℚ)) : List ℚ := r.toOption.getD []

/-! ## Setup-time validation pipeline (spec 4.1, 4.2, 7) -/

/-- Modelled from the spec: the options of one approximated partial that the
setup-time validation inspects (step_calc mode and the directional
perturbation-grouping flag, spec 4.1 / 4.2). -/
structure ApproxOptions where
  stepCalc : String
  directional : Bool
deriving DecidableEq

/-- Modelled from the spec: error message for combining directional
perturbation grouping with the rel_element step mode (spec 4.1). -/
def directionalRelElementMsg : String :=
  "Option directional is not supported when step_calc is set to rel_element"

/-- Modelled from the spec: setup-time validation of approximation options.
An unknown step_calc mode and the directional + rel_element combination are
both InvalidConfiguration errors raised at setup (spec 4.1, 7). -/
def validateOptions (o : ApproxOptions) : Except ConfigError Unit :=
  if o.stepCalc ∈ validStepCalcs then
    if o.directional = true ∧ o.stepCalc = "rel_element" then
      .error (.invalidConfiguration directionalRelElementMsg)
    else .ok ()
  else .error (.invalidConfiguration (stepCalcErrorMsg o.stepCalc))

/-- Modelled from the spec: the approximation pipeline for one elementwise
function.  Configuration is validated at setup time; model evaluations happen
only after a successful setup (a configuration error is fatal at setup, is
never retried, and the evaluation phase is never reached).  The second
component counts model evaluations: one baseline plus one per forward
direction (spec 4.4). -/
def runApproxPipeline (o : ApproxOptions) (v : List ℚ) (base minStep : ℚ)
    (f : ℚ → ℚ) : Except ConfigError (List ℚ) × Nat :=
  match validateOptions o with
  | .error e => (.error e, 0)
  | .ok _ =>
    match computeStep o.stepCalc v base minStep with
    | .error e => (.error e, 0)
    | .ok steps => (.ok (fdDiagForward f v steps), v.length + 1)

/-! ## Evaluation lemmas for the step policy -/

/-- The input vector of the rel_element accuracy property: entries spanning
twenty orders of magnitude (spec 4.1, 8.4). -/
def c6x : List ℚ := [10 ^ 10, 1, 1 / 10 ^ 10]

/-! ## Dependency graph, RelevanceFilter and execution counting (spec 4.2, 4.5) -/

/-- Modelled from the spec: how a component declares which of its outputs
depend on which of its inputs — either an explicit list of (of, wrt) pairs, or
the wildcard declaration making every output depend on every input (spec 9). -/
inductive PartialDecl where
  | explicitPairs : List (String × String) → PartialDecl
  | allPairs : PartialDecl
deriving DecidableEq

/-- Modelled from the spec: a component of the model, with its input and
output variables, its declared partial-dependency pattern, and the
ground-truth internal (of, wrt) dependencies of its compute function. -/
structure Component where
  name : String
  inputs : List String
  outputs : List String
  pdecl : PartialDecl
  trueDeps : List (String × String)
deriving DecidableEq

/-- The (of, wrt) dependency pairs a component declares: the explicit list, or
every (output, input) pair under the wildcard declaration. -/
def declaredDeps (c : Component) : List (String × String) :=
  match c.pdecl with
  | .explicitPairs ps => ps
  | .allPairs => c.outputs.flatMap (fun o => c.inputs.map (fun i => (o, i)))

/-- Modelled from the spec: a model is a list of components plus the data
connections (source output variable, target input variable) between them. -/
structure Model where
  comps : List Component
  conns : List (String × String)
deriving DecidableEq

/-- Directed dependency edges induced by per-component dependency pairs: a
dependency pair (of, wrt) contributes the edge wrt → of. -/
def internalEdges (deps : Component → List (String × String)) (m : Model) :
    List (String × String) :=
  m.comps.flatMap (fun c => (deps c).map (fun p => (p.2, p.1)))

/-- The dependency graph the RelevanceFilter consults: declared internal
dependency edges plus connection edges (spec 4.5). -/
def declEdges (m : Model) : List (String × String) :=
  internalEdges declaredDeps m ++ m.conns

/-- The ground-truth dependency graph: true internal dependency edges plus
connection edges. -/
def trueEdges (m : Model) : List (String × String) :=
  internalEdges (fun c => c.trueDeps) m ++ m.conns

/-- Successors of a vertex set along the edges that are not yet in the set. -/
def newSuccs (edges : List (String × String)) (acc : List String) : List String :=
  ((((edges.filter (fun e => acc.contains e.1)).map (fun e => e.2)).filter
    (fun v => !acc.contains v))).dedup

/-- One round of reachability saturation: add the fresh successors. -/
def reachStep (edges : List (String × String)) (acc : List String) : List String :=
  acc ++ newSuccs edges acc

/-- Iterate the saturation round a fixed number of times. -/
def iterStep (edges : List (String × String)) : Nat → List String → List String
  | 0, acc => acc
  | n + 1, acc => iterStep edges n (reachStep edges acc)

/-- Modelled from the spec: the set of variables reachable from a vertex along
the directed dependency edges, computed by saturating the frontier; after
|edges| + 1 rounds the frontier is a fixpoint (proved below), so this is
exactly the set of vertices a directed path from the start can reach. -/
def reachClosure (edges : List (String × String)) (a : String) : List String :=
  iterStep edges (edges.length + 1) [a]

/-- A directed path exists from a to b in the dependency graph. -/
def reaches (edges : List (String × String)) (a b : String) : Bool :=
  (reachClosure edges a).contains b

/-- Modelled from the spec: RelevanceFilter activation (spec 4.5): a component
is active for a perturbed input when a directed path in the dependency graph
runs from that input through one of the component's outputs to a variable
feeding a requested output.  The graph used is the one built from declared
dependencies. -/
def compActive (m : Model) (src : String) (reqs : List String)
    (c : Component) : Bool :=
  c.outputs.any (fun o =>
    reaches (declEdges m) src o && reqs.any (fun r => reaches (declEdges m) o r))

/-- Activation computed over the ground-truth dependency graph instead of the
declared one: true numerical dependency. -/
def trueActive (m : Model) (src : String) (reqs : List String)
    (c : Component) : Bool :=
  c.outputs.any (fun o =>
    reaches (trueEdges m) src o && reqs.any (fun r => reaches (trueEdges m) o r))

/-- Modelled from the spec: number of extra executions of one component caused
by one perturbation direction — the engine executes exactly the components the
RelevanceFilter reports active (spec 4.5, 2.RelevanceFilter). -/
def perturbExecs (m : Model) (src : String) (reqs : List String)
    (c : Component) : Nat :=
  if compActive m src reqs c then 1 else 0

/-- Size (number of scalar entries) of a variable, defaulting to scalar. -/
def varSize (sizes : List (String × Nat)) (v : String) : Nat :=
  ((sizes.find? (fun p => p.1 == v)).map (fun p => p.2)).getD 1

/-- Modelled from the spec: the default perturbation plan — one direction per
scalar entry of each wrt variable (spec 4.2). -/
def perturbPlan (sizes : List (String × Nat)) (wrts : List String) :
    List String :=
  wrts.flatMap (fun w => List.replicate (varSize sizes w) w)

/-- Modelled from the spec: total number of model evaluations of one component
during a forward-difference total-derivative computation: one baseline
run_model evaluation plus the relevance-filtered executions of each planned
perturbation direction (spec 4.4, 8.1). -/
def approxTotalExecs (m : Model) (sizes : List (String × Nat))
    (wrts reqs : List String) (c : Component) : Nat :=
  1 + ((perturbPlan sizes wrts).map (fun src => perturbExecs m src reqs c)).sum

/-- The paraboloid component of the execution-count test: two scalar inputs,
two outputs, wildcard declared partials. -/
def parabComp : Component :=
  ⟨"parab", ["parab.x", "parab.y"], ["parab.f_xy", "parab.g_xy"], .allPairs,
    [("parab.f_xy", "parab.x"), ("parab.f_xy", "parab.y"),
     ("parab.g_xy", "parab.x"), ("parab.g_xy", "parab.y")]⟩

/-- The model of the execution-count test: two independent scalar sources
feeding the paraboloid component. -/
def parabModel : Model :=
  ⟨[⟨"px", [], ["px.x"], .explicitPairs [], []⟩,
    ⟨"py", [], ["py.y"], .explicitPairs [], []⟩,
    parabComp],
   [("px.x", "parab.x"), ("py.y", "parab.y")]⟩

/-- The relevance-test component with wildcard declared partials: internally
x depends only on a and y only on b, but the declaration says every output
depends on every input. -/
def compOneStar : Component :=
  ⟨"comp1", ["comp1.a", "comp1.b"], ["comp1.x", "comp1.y"], .allPairs,
    [("comp1.x", "comp1.a"), ("comp1.y", "comp1.b")]⟩

/-- The relevance-test component with faithfully declared partials. -/
def compOneExplicit : Component :=
  ⟨"comp1", ["comp1.a", "comp1.b"], ["comp1.x", "comp1.y"],
    .explicitPairs [("comp1.x", "comp1.a"), ("comp1.y", "comp1.b")],
    [("comp1.x", "comp1.a"), ("comp1.y", "comp1.b")]⟩

/-- The relevance-test model around a given middle component: an independent
source pair, the middle component, and two sinks. -/
def relevanceModel (mid : Component) : Model :=
  ⟨[⟨"indep", [], ["indep.a", "indep.b"], .explicitPairs [], []⟩,
    mid,
    ⟨"sink1", ["sink1.a"], ["sink1.x"], .explicitPairs [("sink1.x", "sink1.a")],
      [("sink1.x", "sink1.a")]⟩,
    ⟨"sink2", ["sink2.a"], ["sink2.y"], .explicitPairs [("sink2.y", "sink2.a")],
      [("sink2.y", "sink2.a")]⟩],
   [("indep.a", "comp1.a"), ("indep.b", "comp1.b"),
    ("comp1.x", "sink1.a"), ("comp1.y", "sink2.a")]⟩

/-! ## ComplexStepEngine and the nested complex step fallback (spec 4.3) -/

/-- A quadratic component function a*x^2 + b*x + c.  On quadratics both the
complex-step derivative and the forward-difference truncation error are exact
in rational arithmetic, which lets the fallback accuracy contract be stated
exactly. -/
structure Quad where
  a : ℚ
  b : ℚ
  c : ℚ
deriving DecidableEq

/-- Value of a quadratic at a rational point. -/
def Quad.eval (q : Quad) (x : ℚ) : ℚ := q.a * x ^ 2 + q.b * x + q.c

/-- Analytic derivative of a quadratic. -/
def Quad.deriv (q : Quad) (x : ℚ) : ℚ := 2 * q.a * x + q.b

/-- Complex multiplication on rational (re, im) pairs. -/
def cmul (p q : ℚ × ℚ) : ℚ × ℚ :=
  (p.1 * q.1 - p.2 * q.2, p.1 * q.2 + p.2 * q.1)

/-- Value of a quadratic at a complex (re, im) point. -/
def Quad.evalC (q : Quad) (z : ℚ × ℚ) : ℚ × ℚ :=
  (q.a * (cmul z z).1 + q.b * z.1 + q.c, q.a * (cmul z z).2 + q.b * z.2)

/-- Modelled from the spec: the complex-step derivative — perturb the input by
an imaginary step, evaluate once, and divide the imaginary part of the output
by the step (spec 4.3). -/
def csDeriv (q : Quad) (x h : ℚ) : ℚ := (q.evalC (x, h)).2 / h

/-- Modelled from the spec: a sub-component, with the flag saying whether the
component is itself under complex step internally. -/
structure SubComp where
  name : String
  localCS : Bool
deriving DecidableEq

/-- One sub-evaluation request: a sub-component, its function, its input. -/
structure SubEval where
  comp : SubComp
  q : Quad
  x : ℚ

/-- Modelled from the spec: the text of the nested-complex-step warning,
naming the offending sub-component (spec 4.3). -/
def nestedMsg (n : String) : String :=
  n ++ ": Nested complex step detected. Finite difference will be used."

/-- Engine run state: the warnings emitted so far and the derivative columns
captured so far. -/
structure CSRun where
  warnings : List String
  results : List ℚ
deriving DecidableEq

/-- Modelled from the spec: one sub-evaluation under the enclosing scheme.
When the enclosing scheme is complex-stepping (globalCS) and the
sub-component is itself under complex step, the engine must not stack two
infinitesimals: it falls back to a forward finite difference for that
sub-evaluation and emits the nested-complex-step warning, at most once per
offending sub-component (spec 4.3). -/
def evalSub (globalCS : Bool) (hFD hCS : ℚ) (st : CSRun) (e : SubEval) : CSRun :=
  if globalCS && e.comp.localCS then
    { warnings :=
        if st.warnings.contains (nestedMsg e.comp.name) then st.warnings
        else st.warnings ++ [nestedMsg e.comp.name],
      results := st.results ++ [fdForward e.q.eval e.x hFD] }
  else
    { warnings := st.warnings, results := st.results ++ [csDeriv e.q e.x hCS] }

/-- Run the enclosing complex-step scheme over a list of sub-evaluations. -/
def runGroupCS (hFD hCS : ℚ) (evals : List SubEval) : CSRun :=
  evals.foldl (evalSub true hFD hCS) ⟨[], []⟩

/-! ## Complex-step state cleanup (spec 4.3) -/

/-- A complex variable value in the live model state. -/
structure CVal where
  re : ℚ
  im : ℚ
deriving DecidableEq

/-- The live model state under complex step: named complex variable buffers. -/
abbrev MState := List (String × CVal)

/-- Raise the imaginary perturbation on one variable. -/
def setIm (v : String) (h : ℚ) (st : MState) : MState :=
  st.map (fun p => if p.1 = v then (p.1, ⟨p.2.re, h⟩) else p)

/-- Modelled from the spec: end_group_step clears every imaginary part of the
model state (spec 4.3 state machine: imaginary parts cleared, flag lowered). -/
def clearIm (st : MState) : MState :=
  st.map (fun p => (p.1, ⟨p.2.re, 0⟩))

/-- Imaginary part of a named variable of the state. -/
def getIm (v : String) (st : MState) : ℚ :=
  ((st.find? (fun p => p.1 == v)).map (fun p => p.2.im)).getD 0

/-- Modelled from the spec: one complex-step cycle — raise the imaginary
perturbation on the input, run the model (an arbitrary state transformer),
capture the imaginary part of the requested output divided by the step, then
clear every imaginary part (spec 4.3). -/
def csCycle (run : MState → MState) (v out : String) (h : ℚ) (st : MState) :
    MState × ℚ :=
  let st1 := run (setIm v h st)
  (clearIm st1, getIm out st1 / h)

/-- A sequence of complex-step cycles, threading the model state. -/
def csSequence (run : MState → MState) (out : String)
    (dirs : List (String × ℚ)) (st : MState) : MState :=
  dirs.foldl (fun s d => (csCycle run d.1 out d.2 s).1) st

/-- A concrete model run function for the cleanup witness: writes the complex
square of the input variable x into the output variable y. -/
def demoRun : MState → MState := fun s =>
  match s.find? (fun p => p.1 == "x") with
  | none => s
  | some p =>
    s.map (fun q =>
      if q.1 = "y" then
        (q.1, ⟨p.2.re * p.2.re - p.2.im * p.2.im, 2 * p.2.re * p.2.im⟩)
      else q)

/-! ## JacobianAssembler sparsity-mismatch check (spec 4.6, 7) -/

/-- One sparsity-mismatch diagnostic: the identifying (of, wrt, row, col)
tuple of a computed nonzero entry outside the declared pattern. -/
structure SparsityDiag where
  ofVar : String
  wrtVar : String
  row : Nat
  col : Nat
deriving DecidableEq

/-- Entry of a dense Jacobian block stored as a row-major list of rows. -/
def jEntry (J : List (List ℚ)) (r c : Nat) : ℚ := (J.getD r []).getD c 0

/-- Modelled from the spec: the sparsity-mismatch scan of the check pass —
every entry of the block whose magnitude exceeds the tolerance and whose
(row, col) position is absent from the declared pattern yields one diagnostic
carrying the identifying (of, wrt, row, col) tuple (spec 4.6). -/
def sparsityMismatches (ofVar wrtVar : String) (J : List (List ℚ))
    (nrows ncols : Nat) (declared : List (Nat × Nat)) (tol : ℚ) :
    List SparsityDiag :=
  (List.range nrows).flatMap (fun r =>
    ((List.range ncols).filter
        (fun c => decide (tol < |jEntry J r c|) && !(declared.contains (r, c)))).map
      (fun c => ⟨ofVar, wrtVar, r, c⟩))

/-- The two report modes of the check pass. -/
inductive ReportMode where
  | compact
  | verbose
deriving DecidableEq

/-- Render one diagnostic in the given report mode; both modes carry the
identifying (of, wrt, row, col) tuple. -/
def renderDiag (mode : ReportMode) (d : SparsityDiag) : String :=
  match mode with
  | .compact =>
      "<BAD SPARSITY> " ++ d.ofVar ++ " wrt " ++ d.wrtVar ++ " at (" ++
        toString d.row ++ ", " ++ toString d.col ++ ")"
  | .verbose =>
      d.ofVar ++ " wrt " ++ d.wrtVar ++
        ": sparsity excludes entries which appear to be non-zero. Rows: [" ++
        toString d.row ++ "] Cols: [" ++ toString d.col ++ "]"

/-- Modelled from the spec: the explicit check pass.  A sparsity mismatch is a
soft diagnostic, not an exception (spec 7): the pass always returns ok with
the collected diagnostics and their rendered report lines — it never raises on
account of a mismatch. -/
def checkSparsityPass (mode : ReportMode) (ofVar wrtVar : String)
    (J : List (List ℚ)) (nrows ncols : Nat) (declared : List (Nat × Nat))
    (tol : ℚ) : Except String (List SparsityDiag × List String) :=
  .ok (sparsityMismatches ofVar wrtVar J nrows ncols declared tol,
    (sparsityMismatches ofVar wrtVar J nrows ncols declared tol).map
      (renderDiag mode))

/-- The corrupted y1-wrt-x0 block of the repository's bad-sparsity test: the
true nonzero pattern of the 3 x 4 block with the entry (1, 3) deliberately
missing from the declaration. -/
def badSparsityJ : List (List ℚ) := [[0, 0, 1, 0], [1, 0, 0, 1], [0, 1, 0, 1]]

/-- The declared sparsity of the bad-sparsity test block, missing (1, 3). -/
def badSparsityDecl : List (Nat × Nat) := [(0, 2), (1, 0), (2, 1), (2, 3)]

/-! ## ScipyOptimizeDriver._gradfunc (openmdao/drivers/scipy_optimizer.py) -/

/-- Driver state relevant to the gradient callback: the recorded exception
(self._exc_info), the armed flag of the singular-Jacobian check
(self._check_jac), the cached gradient (self._grad_cache), and an
instrumentation counter of how many times check_total_jac has been entered. -/
structure GradState where
  excInfo : Option String
  checkJac : Bool
  gradCache : Option (List ℚ)
  checkRuns : Nat
deriving DecidableEq

/-- Environment of a single _gradfunc call: the outcome of
self._compute_totals (a gradient row or a raised exception), whether
self._total_jac is not None, whether any subsystem group has _has_approx set,
and the outcome of self._total_jac.check_total_jac (which raises when
singular_jac_behavior is error and the total Jacobian has a zero row or
column). -/
structure GradEnv where
  computeTotals : Except String (List ℚ)
  totalJacSome : Bool
  hasApproxGroup : Bool
  checkTotalJac : Except String Unit

/-- Record an exception the way the except clause does: only the first one is
kept (if self._exc_info is None). -/
def recordExc (st : GradState) (e : String) : GradState :=
  if st.excInfo = none then { st with excInfo := some e } else st

/-- Embedding of ScipyOptimizeDriver._gradfunc.  On success the gradient is
cached and returned.  While the check flag is armed and a total Jacobian
exists, the subsystems are scanned: if any group uses approximated
derivatives the singular-Jacobian check is skipped, otherwise
check_total_jac runs; the armed flag is cleared at the end of the block — a
statement that is not reached when check_total_jac raises.  Any exception
inside the try block records the first exception and makes the callback
return an empty array instead of propagating. -/
def gradfunc (st : GradState) (env : GradEnv) : GradState × List ℚ :=
  match env.computeTotals with
  | .error e => (recordExc st e, [])
  | .ok grad =>
    let st1 := { st with gradCache := some grad }
    if st1.checkJac && env.totalJacSome then
      if env.hasApproxGroup then
        ({ st1 with checkJac := false }, grad)
      else
        let st2 := { st1 with checkRuns := st1.checkRuns + 1 }
        match env.checkTotalJac with
        | .error e => (recordExc st2 e, [])
        | .ok _ => ({ st2 with checkJac := false }, grad)
    else (st1, grad)

/-- The driver state entering the optimization run: no exception recorded,
check armed (singular_jac_behavior is error or warn), nothing cached. -/
def initGradState : GradState := ⟨none, true, none, 0⟩

/-- A sequence of gradient callbacks, threading the driver state. -/
def runGradSeq (st : GradState) (envs : List GradEnv) : GradState :=
  envs.foldl (fun s env => (gradfunc s env).1) st

/-- The call environment of the counterexample: total derivatives succeed, a
total Jacobian exists, no group uses approximated derivatives, and
check_total_jac raises (singular_jac_behavior is error and the Jacobian has a
zero row or column). -/
def singularErrorEnv : GradEnv :=
  ⟨.ok [1], true, false, .error "Constraints or objectives [y] cannot be impacted"⟩

/-! ## Theorems -/

theorem computeStep_rel (v : List ℚ) (b m : ℚ) :
    computeStep "rel" v b m = .ok (v.map (fun _ => b * max (l1norm v) m)) := rfl

theorem computeStep_rel_legacy (v : List ℚ) (b m : ℚ) :
    computeStep "rel_legacy" v b m = .ok (v.map (fun _ => b * max (l1norm v) m)) := rfl

theorem computeStep_rel_avg (v : List ℚ) (b m : ℚ) :
    computeStep "rel_avg" v b m = .ok (v.map (fun _ => b * max (avgAbs v) m)) := rfl

theorem computeStep_rel_element (v : List ℚ) (b m : ℚ) :
    computeStep "rel_element" v b m = .ok (v.map (fun x => b * max (|x|) m)) := rfl

theorem l1norm_zero (n : ℕ) : l1norm (List.replicate n 0) = 0 := by
  simp [l1norm, List.map_replicate]

theorem avgAbs_zero (n : ℕ) : avgAbs (List.replicate n 0) = 0 := by
  simp [avgAbs, l1norm_zero]

theorem fdForward_halfSq (x h : ℚ) (hh : h ≠ 0) :
    fdForward halfSq x h = x + h / 2 := by
  unfold fdForward halfSq
  field_simp
  ring

theorem fdCentral_halfSq (x h : ℚ) (hh : h ≠ 0) :
    fdCentral halfSq x h = x := by
  unfold fdCentral halfSq
  field_simp
  ring

/-- C5: for every relative step-calc mode (rel / rel_legacy, rel_avg,
rel_element) with a positive minimum_step, a nominal input vector that is
exactly zero gets its whole step vector from the minimum_step floor alone
(every entry equals base * minimum_step and is nonzero, so differencing never
divides by a zero delta), and the forward-difference derivative of
f(x) = 0.5 * x^2 at 0 lies within a minimum_step-scaled tolerance of the
analytic value 0. -/
theorem step_floor_zero_nominal (mode : String)
    (hmode : mode ∈ ["rel", "rel_legacy", "rel_avg", "rel_element"])
    (n : ℕ) (base minStep : ℚ) (hb : 0 < base) (hm : 0 < minStep) :
    computeStep mode (List.replicate n 0) base minStep =
      .ok (List.replicate n (base * minStep)) ∧
    0 < base * minStep ∧
    |fdForward halfSq 0 (base * minStep) - 0| ≤ base * minStep := by
  have hpos : 0 < base * minStep := mul_pos hb hm
  refine ⟨?_, hpos, ?_⟩
  · have hmax : max (0 : ℚ) minStep = minStep := max_eq_right hm.le
    simp only [List.mem_cons, List.mem_singleton, List.not_mem_nil, or_false] at hmode
    rcases hmode with h | h | h | h <;> subst h
    · rw [computeStep_rel, l1norm_zero, hmax, List.map_replicate]
    · rw [computeStep_rel_legacy, l1norm_zero, hmax, List.map_replicate]
    · rw [computeStep_rel_avg, avgAbs_zero, hmax, List.map_replicate]
    · rw [computeStep_rel_element, List.map_replicate, abs_zero, hmax]
  · rw [fdForward_halfSq 0 (base * minStep) hpos.ne.symm]
    rw [zero_add, sub_zero, abs_of_nonneg (by linarith)]
    linarith

/-- Witness for C5 at mode rel_element, n = 3, base = minimum_step = 1. -/
theorem step_floor_zero_nominal_witness :
    computeStep "rel_element" (List.replicate 3 0) 1 1 =
      .ok (List.replicate 3 ((1 : ℚ) * 1)) ∧
    (0 : ℚ) < 1 * 1 ∧
    |fdForward halfSq 0 ((1 : ℚ) * 1) - 0| ≤ 1 * 1 :=
  step_floor_zero_nominal "rel_element" (by decide) 3 1 1 (by decide) (by decide)

/-- C6: for the input vector [1e10, 1, 1e-10] and f(x) = 0.5 * x^2 applied
elementwise, central differencing with rel_element steps (base step 1e-6,
minimum_step 1e-12) reproduces the analytic diagonal derivative exactly in
exact arithmetic (hence to any tight relative tolerance), while forward
differencing with the ordinary (non-element) relative step-calc misses the
1e10 entry by an absolute margin that is wide (more than 10^3) but bounded
(less than 10^4). -/
theorem rel_element_central_accuracy :
    fdDiagCentral halfSq c6x
        (stepsOf (computeStep "rel_element" c6x (1 / 10 ^ 6) (1 / 10 ^ 12))) = c6x ∧
    1000 <
      |(fdDiagForward halfSq c6x
          (stepsOf (computeStep "rel" c6x (1 / 10 ^ 6) (1 / 10 ^ 12)))).headD 0 - 10 ^ 10| ∧
    |(fdDiagForward halfSq c6x
        (stepsOf (computeStep "rel" c6x (1 / 10 ^ 6) (1 / 10 ^ 12)))).headD 0 - 10 ^ 10| <
      10 ^ 4 := by
  have helem : stepsOf (computeStep "rel_element" c6x (1 / 10 ^ 6) (1 / 10 ^ 12)) =
      [10 ^ 4, 1 / 10 ^ 6, 1 / 10 ^ 16] := by
    rw [computeStep_rel_element]
    simp only [stepsOf, Except.toOption, Option.getD, c6x, List.map_cons, List.map_nil]
    norm_num [max_def, abs_of_nonneg]
  have hnorm : l1norm c6x = 10 ^ 10 + 1 + 1 / 10 ^ 10 := by
    simp only [l1norm, c6x, List.map_cons, List.map_nil, List.sum_cons, List.sum_nil]
    norm_num [abs_of_nonneg]
  have hmaxrel : max (l1norm c6x) ((1 : ℚ) / 10 ^ 12) = 10 ^ 10 + 1 + 1 / 10 ^ 10 := by
    rw [hnorm]
    exact max_eq_left (by norm_num)
  have hrel : stepsOf (computeStep "rel" c6x (1 / 10 ^ 6) (1 / 10 ^ 12)) =
      [(10 ^ 10 + 1 + 1 / 10 ^ 10) / 10 ^ 6, (10 ^ 10 + 1 + 1 / 10 ^ 10) / 10 ^ 6,
        (10 ^ 10 + 1 + 1 / 10 ^ 10) / 10 ^ 6] := by
    rw [computeStep_rel]
    simp only [hmaxrel]
    simp only [stepsOf, Except.toOption, Option.getD, c6x, List.map_cons, List.map_nil]
    norm_num
  have habs : ∀ q : ℚ, 0 ≤ q → |q| = q := fun q h => abs_of_nonneg h
  refine ⟨?_, ?_, ?_⟩
  · rw [helem]
    simp only [fdDiagCentral, c6x, List.zip_cons_cons, List.zip_nil_right,
      List.map_cons, List.map_nil]
    rw [fdCentral_halfSq _ _ (by norm_num), fdCentral_halfSq _ _ (by norm_num),
      fdCentral_halfSq _ _ (by norm_num)]
  · rw [hrel]
    simp only [fdDiagForward, c6x, List.zip_cons_cons, List.zip_nil_right,
      List.map_cons, List.map_nil, List.headD_cons]
    rw [fdForward_halfSq _ _ (by norm_num), habs _ (by norm_num)]
    norm_num
  · rw [hrel]
    simp only [fdDiagForward, c6x, List.zip_cons_cons, List.zip_nil_right,
      List.map_cons, List.map_nil, List.headD_cons]
    rw [fdForward_halfSq _ _ (by norm_num), habs _ (by norm_num)]
    norm_num

/-- C8: declaring a partial with an unknown step_calc mode fails at setup time
with an InvalidConfiguration error whose message lists the valid set
abs, rel, rel_legacy, rel_avg, rel_element; the failure is fatal at setup
(zero model evaluations are performed) and is never retried. -/
theorem unknown_step_calc_fatal (o : ApproxOptions) (v : List ℚ)
    (base minStep : ℚ) (f : ℚ → ℚ) (hbad : o.stepCalc ∉ validStepCalcs) :
    runApproxPipeline o v base minStep f =
      (.error (.invalidConfiguration (stepCalcErrorMsg o.stepCalc)), 0) ∧
    stepCalcErrorMsg o.stepCalc =
      "step_calc " ++ o.stepCalc ++
        " is not a valid setting; must be one of: abs, rel, rel_legacy, rel_avg, rel_element" := by
  constructor
  · unfold runApproxPipeline validateOptions
    rw [if_neg hbad]
  · unfold stepCalcErrorMsg
    rw [String.append_assoc]
    rfl

/-- Witness for C8 at the unknown mode junk (the mode name used by the
repository's own test). -/
theorem unknown_step_calc_fatal_witness :
    runApproxPipeline ⟨"junk", false⟩ [1] 1 1 halfSq =
      (.error (.invalidConfiguration (stepCalcErrorMsg "junk")), 0) ∧
    stepCalcErrorMsg "junk" =
      "step_calc " ++ "junk" ++
        " is not a valid setting; must be one of: abs, rel, rel_legacy, rel_avg, rel_element" :=
  unknown_step_calc_fatal ⟨"junk", false⟩ [1] 1 1 halfSq (by decide)

/-- C9: declaring both the directional perturbation-grouping option and the
rel_element step-calc mode fails with an InvalidConfiguration error at setup
time: the pipeline returns the error with zero model evaluations performed,
so the failure never happens at evaluation time. -/
theorem directional_rel_element_fatal (o : ApproxOptions) (v : List ℚ)
    (base minStep : ℚ) (f : ℚ → ℚ)
    (hdir : o.directional = true) (hrel : o.stepCalc = "rel_element") :
    runApproxPipeline o v base minStep f =
      (.error (.invalidConfiguration directionalRelElementMsg), 0) := by
  unfold runApproxPipeline validateOptions
  rw [if_pos (by rw [hrel]; decide), if_pos ⟨hdir, hrel⟩]

/-- Witness for C9 at a concrete directional + rel_element configuration. -/
theorem directional_rel_element_fatal_witness :
    runApproxPipeline ⟨"rel_element", true⟩ [1] 1 1 halfSq =
      (.error (.invalidConfiguration directionalRelElementMsg), 0) :=
  directional_rel_element_fatal ⟨"rel_element", true⟩ [1] 1 1 halfSq rfl rfl

theorem contains_iff_mem {α : Type} [BEq α] [LawfulBEq α] (l : List α)
    (a : α) : l.contains a = true ↔ a ∈ l := by
  simp [List.contains, List.elem_iff]

theorem subset_reachStep (edges : List (String × String)) (acc : List String) :
    acc ⊆ reachStep edges acc :=
  List.subset_append_left _ _

theorem iterStep_subset (edges : List (String × String)) (n : Nat)
    (acc : List String) : acc ⊆ iterStep edges n acc := by
  induction n generalizing acc with
  | zero => exact fun x hx => hx
  | succ n ih =>
    exact fun x hx => ih (reachStep edges acc) (subset_reachStep edges acc hx)

theorem iterStep_fix (edges : List (String × String)) (n : Nat)
    (acc : List String) (hfix : reachStep edges acc = acc) :
    iterStep edges n acc = acc := by
  induction n with
  | zero => rfl
  | succ n ih =>
    show iterStep edges n (reachStep edges acc) = acc
    rw [hfix, ih]

theorem iterStep_succ_out (edges : List (String × String)) (n : Nat)
    (acc : List String) :
    iterStep edges (n + 1) acc = reachStep edges (iterStep edges n acc) := by
  induction n generalizing acc with
  | zero => rfl
  | succ n ih =>
    show iterStep edges (n + 1) (reachStep edges acc) = _
    rw [ih (reachStep edges acc)]
    rfl

theorem mem_newSuccs (edges : List (String × String)) (acc : List String)
    (v : String) :
    v ∈ newSuccs edges acc ↔
      v ∉ acc ∧ ∃ u, u ∈ acc ∧ (u, v) ∈ edges := by
  unfold newSuccs
  rw [List.mem_dedup, List.mem_filter, List.mem_map]
  constructor
  · rintro ⟨⟨e, he, hev⟩, hnot⟩
    rw [List.mem_filter] at he
    refine ⟨?_, e.1, ?_, ?_⟩
    · intro hv
      rw [Bool.not_eq_true', ← Bool.not_eq_true] at hnot
      exact hnot ((contains_iff_mem acc v).mpr hv)
    · exact (contains_iff_mem acc e.1).mp he.2
    · rw [← hev]
      exact he.1
  · rintro ⟨hnot, u, hu, hedge⟩
    refine ⟨⟨(u, v), List.mem_filter.mpr ⟨hedge, (contains_iff_mem acc u).mpr hu⟩, rfl⟩, ?_⟩
    simp only [Bool.not_eq_true']
    cases hc : acc.contains v with
    | false => rfl
    | true => exact absurd ((contains_iff_mem acc v).mp hc) hnot

theorem nodup_reachStep (edges : List (String × String)) (acc : List String)
    (h : acc.Nodup) : (reachStep edges acc).Nodup := by
  refine List.Nodup.append h (List.nodup_dedup _) ?_
  rw [List.disjoint_left]
  intro v hv hvnew
  exact ((mem_newSuccs edges acc v).mp hvnew).1 hv

theorem reachStep_subset_targets (edges : List (String × String))
    (acc : List String) :
    reachStep edges acc ⊆ acc ++ edges.map (fun e => e.2) := by
  intro v hv
  rcases List.mem_append.mp hv with h | h
  · exact List.mem_append.mpr (Or.inl h)
  · rcases (mem_newSuccs edges acc v).mp h with ⟨_, u, _, hedge⟩
    exact List.mem_append.mpr (Or.inr (List.mem_map.mpr ⟨(u, v), hedge, rfl⟩))

theorem iterStep_subset_targets (edges : List (String × String)) (n : Nat)
    (a : String) :
    iterStep edges n [a] ⊆ a :: edges.map (fun e => e.2) := by
  induction n with
  | zero =>
    intro v hv
    simp only [iterStep] at hv
    rw [List.mem_singleton] at hv
    exact hv ▸ List.mem_cons_self a _
  | succ n ih =>
    rw [iterStep_succ_out]
    intro v hv
    rcases List.mem_append.mp (reachStep_subset_targets edges _ hv) with h | h
    · exact ih h
    · exact List.mem_cons_of_mem a h

theorem nodup_iterStep (edges : List (String × String)) (n : Nat) (a : String) :
    (iterStep edges n [a]).Nodup := by
  induction n with
  | zero => simp [iterStep]
  | succ n ih =>
    rw [iterStep_succ_out]
    exact nodup_reachStep edges _ ih

theorem reachStep_grow (edges : List (String × String)) (acc : List String)
    (h : reachStep edges acc ≠ acc) :
    acc.length + 1 ≤ (reachStep edges acc).length := by
  unfold reachStep at h ⊢
  rcases Nat.eq_zero_or_pos (newSuccs edges acc).length with h0 | hpos
  · exact absurd (by rw [List.eq_nil_of_length_eq_zero h0, List.append_nil]) h
  · rw [List.length_append]
    omega

theorem reachClosure_isFix (edges : List (String × String)) (a : String) :
    reachStep edges (reachClosure edges a) = reachClosure edges a := by
  have key : ∀ n : Nat, n + 1 ≤ (iterStep edges n [a]).length ∨
      reachStep edges (iterStep edges n [a]) = iterStep edges n [a] := by
    intro n
    induction n with
    | zero => left; simp [iterStep]
    | succ n ih =>
      rcases ih with hlen | hfix
      · by_cases hf : reachStep edges (iterStep edges n [a]) = iterStep edges n [a]
        · right
          rw [iterStep_succ_out, hf, hf]
        · left
          rw [iterStep_succ_out]
          have := reachStep_grow edges (iterStep edges n [a]) hf
          omega
      · right
        rw [iterStep_succ_out, hfix, hfix]
  rcases key (edges.length + 1) with hlen | hfix
  · exfalso
    have hsub := iterStep_subset_targets edges (edges.length + 1) a
    have hnd := nodup_iterStep edges (edges.length + 1) a
    have hle := (List.Nodup.subperm hnd hsub).length_le
    rw [List.length_cons, List.length_map] at hle
    omega
  · exact hfix

theorem reaches_self (edges : List (String × String)) (a : String) :
    reaches edges a a = true := by
  unfold reaches
  exact (contains_iff_mem _ a).mpr
    (iterStep_subset edges (edges.length + 1) [a] (by simp))

theorem reaches_edge_closed (edges : List (String × String)) (a u v : String)
    (hreach : reaches edges a u = true) (hedge : (u, v) ∈ edges) :
    reaches edges a v = true := by
  unfold reaches at hreach ⊢
  rw [contains_iff_mem] at hreach ⊢
  by_contra hv
  have hfix := reachClosure_isFix edges a
  unfold reachStep at hfix
  have hnil : newSuccs edges (reachClosure edges a) = [] := by
    have := congrArg List.length hfix
    rw [List.length_append] at this
    exact List.eq_nil_of_length_eq_zero (by omega)
  have : v ∈ newSuccs edges (reachClosure edges a) :=
    (mem_newSuccs edges _ v).mpr ⟨hv, u, hreach, hedge⟩
  rw [hnil] at this
  exact absurd this (List.not_mem_nil v)

theorem perturbPlan_scalar (sizes : List (String × Nat)) (l : List String)
    (hl : ∀ w ∈ l, varSize sizes w = 1) : perturbPlan sizes l = l := by
  induction l with
  | nil => rfl
  | cons w ws ih =>
    rw [perturbPlan, List.flatMap_cons, hl w (List.mem_cons_self w ws),
      List.replicate_one]
    rw [perturbPlan] at ih
    rw [ih fun x hx => hl x (List.mem_cons_of_mem w hx)]
    rfl

/-- C1: with one scalar objective and a list of scalar design variables each
of which can reach the objective (so the relevance filter keeps the
approximated component active for every direction), a forward
finite-difference total-derivative computation evaluates the approximated
component exactly (number of design variables) + 1 times: one baseline
run_model evaluation plus one perturbed evaluation per design variable.  The
design-variable list is the driver's active set, so restricting the driver to
a strict subset of size k is the same statement at that subset and gives
k + 1 evaluations. -/
theorem fd_execution_count (m : Model) (sizes : List (String × Nat))
    (reqs : List String) (c : Component) (dvs : List String)
    (hscalar : ∀ w ∈ dvs, varSize sizes w = 1)
    (hactive : ∀ w ∈ dvs, compActive m w reqs c = true) :
    approxTotalExecs m sizes dvs reqs c = dvs.length + 1 := by
  rw [approxTotalExecs, perturbPlan_scalar sizes dvs hscalar]
  have hsum : ∀ l : List String, (∀ w ∈ l, compActive m w reqs c = true) →
      (l.map (fun src => perturbExecs m src reqs c)).sum = l.length := by
    intro l
    induction l with
    | nil => intro _; rfl
    | cons w ws ih =>
      intro hl
      rw [List.map_cons, List.sum_cons, ih fun x hx => hl x (List.mem_cons_of_mem w hx)]
      rw [perturbExecs, if_pos (hl w (List.mem_cons_self w ws))]
      rw [List.length_cons]
      omega
  rw [hsum dvs hactive]
  omega

theorem declEdges_eq_trueEdges (m : Model)
    (hfaith : ∀ c2 ∈ m.comps, c2.pdecl = .explicitPairs c2.trueDeps) :
    declEdges m = trueEdges m := by
  unfold declEdges trueEdges internalEdges
  have : ∀ c2 ∈ m.comps,
      (declaredDeps c2).map (fun p => (p.2, p.1)) =
        c2.trueDeps.map (fun p => (p.2, p.1)) := by
    intro c2 hc2
    rw [declaredDeps, hfaith c2 hc2]
  rw [List.flatMap_congr this]

/-- C2: relevance pruning.  First conjunct: in a model where every component
declares exactly its true internal dependencies, a perturbation direction adds
zero executions of a component precisely when no directed path in the
ground-truth dependency graph runs from the perturbed input through that
component to a requested output (so a component is re-executed iff such a path
exists).  Second conjunct: a component declaring the wildcard pattern is
executed whenever a perturbed input reaches any of its inputs and any of its
outputs feeds a requested output — even when no true internal dependency
connects them, since the declared graph, not the ground truth, drives the
filter. -/
theorem relevance_pruning (m : Model) (src : String) (reqs : List String) :
    (∀ c : Component,
      (∀ c2 ∈ m.comps, c2.pdecl = .explicitPairs c2.trueDeps) →
      (perturbExecs m src reqs c = 0 ↔ trueActive m src reqs c = false)) ∧
    (∀ c : Component, ∀ i o : String, c ∈ m.comps → c.pdecl = .allPairs →
      i ∈ c.inputs → o ∈ c.outputs →
      reaches (declEdges m) src i = true →
      reqs.any (fun r => reaches (declEdges m) o r) = true →
      perturbExecs m src reqs c = 1) := by
  constructor
  · intro c hfaith
    have hedges := declEdges_eq_trueEdges m hfaith
    have hact : compActive m src reqs c = trueActive m src reqs c := by
      unfold compActive trueActive
      rw [hedges]
    rw [perturbExecs, hact]
    cases h : trueActive m src reqs c
    · simp [h]
    · simp [h]
  · intro c i o hc hall hi ho hreach hreq
    have hedge : (i, o) ∈ declEdges m := by
      unfold declEdges internalEdges
      refine List.mem_append.mpr (Or.inl ?_)
      refine List.mem_flatMap.mpr ⟨c, hc, ?_⟩
      refine List.mem_map.mpr ⟨(o, i), ?_, rfl⟩
      rw [declaredDeps, hall]
      exact List.mem_flatMap.mpr ⟨o, ho, List.mem_map.mpr ⟨i, hi, rfl⟩⟩
    have hro : reaches (declEdges m) src o = true :=
      reaches_edge_closed (declEdges m) src i o hreach hedge
    rw [perturbExecs, if_pos]
    rw [compActive, List.any_eq_true]
    exact ⟨o, ho, by rw [hro, hreq]; rfl⟩

/-- Witness for C1: on the paraboloid model, a forward FD total-derivative
computation with both design variables active evaluates the component
3 = 2 + 1 times, and with the driver restricted to the strict subset
containing only the first design variable it evaluates it 2 = 1 + 1 times. -/
theorem fd_execution_count_witness :
    approxTotalExecs parabModel [] ["px.x", "py.y"] ["parab.f_xy"] parabComp = 3 ∧
    approxTotalExecs parabModel [] ["px.x"] ["parab.f_xy"] parabComp = 2 :=
  ⟨fd_execution_count parabModel [] ["parab.f_xy"] parabComp ["px.x", "py.y"]
      (by decide) (by decide),
   fd_execution_count parabModel [] ["parab.f_xy"] parabComp ["px.x"]
      (by decide) (by decide)⟩

/-- Witness for C2, mirroring the repository's relevance tests: with faithful
declarations, perturbing indep.b while requesting only sink1.x re-executes
comp1 zero times (no true path); with the wildcard declaration the same
perturbation executes comp1 once even though the ground-truth activation is
false. -/
theorem relevance_pruning_witness :
    perturbExecs (relevanceModel compOneExplicit) "indep.b" ["sink1.x"]
      compOneExplicit = 0 ∧
    perturbExecs (relevanceModel compOneStar) "indep.b" ["sink1.x"]
      compOneStar = 1 ∧
    trueActive (relevanceModel compOneStar) "indep.b" ["sink1.x"]
      compOneStar = false :=
  ⟨((relevance_pruning (relevanceModel compOneExplicit) "indep.b"
      ["sink1.x"]).1 compOneExplicit (by decide)).mpr (by decide),
   (relevance_pruning (relevanceModel compOneStar) "indep.b" ["sink1.x"]).2
      compOneStar "comp1.b" "comp1.x" (by decide) rfl (by decide) (by decide)
      (by decide) (by decide),
   by decide⟩

theorem csDeriv_exact (q : Quad) (x h : ℚ) (hh : h ≠ 0) :
    csDeriv q x h = q.deriv x := by
  unfold csDeriv Quad.evalC Quad.deriv cmul
  field_simp
  ring

theorem fdForward_quad (q : Quad) (x h : ℚ) (hh : h ≠ 0) :
    fdForward q.eval x h = q.deriv x + q.a * h := by
  unfold fdForward Quad.eval Quad.deriv
  field_simp
  ring

theorem runGroupCS_fold (hFD hCS : ℚ) (evals : List SubEval)
    (hoff : ∀ e ∈ evals, e.comp.localCS = true) :
    ∀ st : CSRun,
      (evals.foldl (evalSub true hFD hCS) st).results =
        st.results ++ evals.map (fun e => fdForward e.q.eval e.x hFD) ∧
      ((evals.foldl (evalSub true hFD hCS) st).warnings.Nodup ∨
        ¬ st.warnings.Nodup) ∧
      (∀ s, s ∈ (evals.foldl (evalSub true hFD hCS) st).warnings ↔
        s ∈ st.warnings ∨ ∃ e ∈ evals, s = nestedMsg e.comp.name) := by
  induction evals with
  | nil =>
    intro st
    refine ⟨by simp, ?_, by simp⟩
    by_cases h : st.warnings.Nodup
    · exact Or.inl h
    · exact Or.inr h
  | cons e es ih =>
    intro st
    have he : e.comp.localCS = true := hoff e (List.mem_cons_self e es)
    have hoff2 : ∀ x ∈ es, x.comp.localCS = true :=
      fun x hx => hoff x (List.mem_cons_of_mem e hx)
    have hstep : evalSub true hFD hCS st e =
        { warnings :=
            if st.warnings.contains (nestedMsg e.comp.name) then st.warnings
            else st.warnings ++ [nestedMsg e.comp.name],
          results := st.results ++ [fdForward e.q.eval e.x hFD] } := by
      unfold evalSub
      rw [he]
      rfl
    have hfold : (e :: es).foldl (evalSub true hFD hCS) st =
        es.foldl (evalSub true hFD hCS) (evalSub true hFD hCS st e) := rfl
    obtain ⟨ihres, ihnd, ihmem⟩ := ih hoff2 (evalSub true hFD hCS st e)
    refine ⟨?_, ?_, ?_⟩
    · rw [hfold, ihres, hstep]
      simp
    · rcases ihnd with h | h
      · exact Or.inl (hfold ▸ h)
      · right
        intro hnd
        apply h
        rw [hstep]
        by_cases hc : st.warnings.contains (nestedMsg e.comp.name) = true
        · rw [if_pos hc]
          exact hnd
        · rw [if_neg hc]
          refine List.Nodup.append hnd (List.nodup_singleton _) ?_
          rw [List.disjoint_left]
          intro a ha hamem
          rw [List.mem_singleton] at hamem
          subst hamem
          exact absurd ((contains_iff_mem _ _).mpr ha) (by simpa using hc)
    · intro s
      rw [hfold, ihmem s]
      have hw : s ∈ (evalSub true hFD hCS st e).warnings ↔
          s ∈ st.warnings ∨ s = nestedMsg e.comp.name := by
        rw [hstep]
        by_cases hc : st.warnings.contains (nestedMsg e.comp.name) = true
        · rw [if_pos hc]
          constructor
          · exact Or.inl
          · rintro (h | h)
            · exact h
            · exact h ▸ (contains_iff_mem _ _).mp hc
        · rw [if_neg hc, List.mem_append, List.mem_singleton]
      rw [hw]
      constructor
      · rintro ((h | h) | ⟨x, hx, hs⟩)
        · exact Or.inl h
        · exact Or.inr ⟨e, List.mem_cons_self e es, h⟩
        · exact Or.inr ⟨x, List.mem_cons_of_mem e hx, hs⟩
      · rintro (h | ⟨x, hx, hs⟩)
        · exact Or.inl (Or.inl h)
        · rcases List.mem_cons.mp hx with hx | hx
          · exact Or.inl (Or.inr (hx ▸ hs))
          · exact Or.inr ⟨x, hx, hs⟩

/-- C3: when the enclosing scheme requests complex step and every
sub-component in the evaluation list is itself under complex step, the engine
falls back to finite differencing for each sub-evaluation and emits exactly
one warning per offending sub-component (the warning list has no duplicates
and contains precisely the messages naming each offender with the text
": Nested complex step detected. Finite difference will be used."); the
computation still completes, every derivative column equalling the true
derivative plus the forward-difference truncation term a * h — i.e. the
result matches the true derivative to finite-difference-level (not
complex-step-level) tolerance: the error of each column is bounded by
A * |h| for any bound A on the quadratic coefficients. -/
theorem nested_cs_fallback (hFD hCS : ℚ) (A : ℚ) (evals : List SubEval)
    (hhFD : hFD ≠ 0)
    (hoff : ∀ e ∈ evals, e.comp.localCS = true)
    (hA : ∀ e ∈ evals, |e.q.a| ≤ A) :
    (runGroupCS hFD hCS evals).warnings.Nodup ∧
    (∀ s, s ∈ (runGroupCS hFD hCS evals).warnings ↔
      ∃ e ∈ evals, s = nestedMsg e.comp.name) ∧
    (runGroupCS hFD hCS evals).results =
      evals.map (fun e => e.q.deriv e.x + e.q.a * hFD) ∧
    (∀ p ∈ (runGroupCS hFD hCS evals).results.zip
        (evals.map (fun e => e.q.deriv e.x)), |p.1 - p.2| ≤ A * |hFD|) := by
  obtain ⟨hres, hnd, hmem⟩ := runGroupCS_fold hFD hCS evals hoff ⟨[], []⟩
  have hresults : (runGroupCS hFD hCS evals).results =
      evals.map (fun e => e.q.deriv e.x + e.q.a * hFD) := by
    rw [runGroupCS, hres]
    simp only [List.nil_append]
    exact List.map_congr_left fun e he => fdForward_quad e.q e.x hFD hhFD
  refine ⟨?_, ?_, hresults, ?_⟩
  · rcases hnd with h | h
    · exact h
    · exact absurd List.nodup_nil h
  · intro s
    rw [runGroupCS, hmem s]
    simp
  · intro p hp
    rw [hresults, List.zip_map'] at hp
    rcases List.mem_map.mp hp with ⟨e, he, hpe⟩
    rw [← hpe]
    simp only [add_sub_cancel_left]
    rw [abs_mul]
    exact mul_le_mul_of_nonneg_right (hA e he) (abs_nonneg hFD)

/-- Witness for C3 on two offending sub-components (named d1 and d2 as in the
repository's Sellar test), evaluated twice each. -/
theorem nested_cs_fallback_witness :
    (runGroupCS 1 1 [⟨⟨"d1", true⟩, ⟨1, 0, 0⟩, 2⟩, ⟨⟨"d2", true⟩, ⟨1, 1, 0⟩, 3⟩,
        ⟨⟨"d1", true⟩, ⟨1, 0, 0⟩, 2⟩]).warnings.Nodup ∧
    (∀ s, s ∈ (runGroupCS 1 1 [⟨⟨"d1", true⟩, ⟨1, 0, 0⟩, 2⟩,
        ⟨⟨"d2", true⟩, ⟨1, 1, 0⟩, 3⟩, ⟨⟨"d1", true⟩, ⟨1, 0, 0⟩, 2⟩]).warnings ↔
      ∃ e ∈ ([⟨⟨"d1", true⟩, ⟨1, 0, 0⟩, 2⟩, ⟨⟨"d2", true⟩, ⟨1, 1, 0⟩, 3⟩,
        ⟨⟨"d1", true⟩, ⟨1, 0, 0⟩, 2⟩] : List SubEval), s = nestedMsg e.comp.name) ∧
    (runGroupCS 1 1 [⟨⟨"d1", true⟩, ⟨1, 0, 0⟩, 2⟩, ⟨⟨"d2", true⟩, ⟨1, 1, 0⟩, 3⟩,
        ⟨⟨"d1", true⟩, ⟨1, 0, 0⟩, 2⟩]).results =
      ([⟨⟨"d1", true⟩, ⟨1, 0, 0⟩, 2⟩, ⟨⟨"d2", true⟩, ⟨1, 1, 0⟩, 3⟩,
        ⟨⟨"d1", true⟩, ⟨1, 0, 0⟩, 2⟩] : List SubEval).map
        (fun e => e.q.deriv e.x + e.q.a * 1) ∧
    (∀ p ∈ (runGroupCS 1 1 [⟨⟨"d1", true⟩, ⟨1, 0, 0⟩, 2⟩,
        ⟨⟨"d2", true⟩, ⟨1, 1, 0⟩, 3⟩, ⟨⟨"d1", true⟩, ⟨1, 0, 0⟩, 2⟩]).results.zip
        (([⟨⟨"d1", true⟩, ⟨1, 0, 0⟩, 2⟩, ⟨⟨"d2", true⟩, ⟨1, 1, 0⟩, 3⟩,
        ⟨⟨"d1", true⟩, ⟨1, 0, 0⟩, 2⟩] : List SubEval).map
        (fun e => e.q.deriv e.x)), |p.1 - p.2| ≤ 1 * |(1 : ℚ)|) :=
  nested_cs_fallback 1 1 1
    [⟨⟨"d1", true⟩, ⟨1, 0, 0⟩, 2⟩, ⟨⟨"d2", true⟩, ⟨1, 1, 0⟩, 3⟩,
      ⟨⟨"d1", true⟩, ⟨1, 0, 0⟩, 2⟩]
    (by decide) (by decide) (by decide)

theorem clearIm_all_zero (st : MState) :
    (clearIm st).all (fun p => p.2.im == 0) = true := by
  rw [List.all_eq_true]
  intro p hp
  rcases List.mem_map.mp hp with ⟨q, _, hq⟩
  rw [← hq]
  rfl

/-- C4: after any nonempty sequence of complex-step cycles completes — for any
model run function, any perturbed inputs and steps, and any starting state —
every imaginary component of the model state equals exactly zero: the engine
cleans up after itself and leaves no imaginary residue. -/
theorem cs_cleanup (run : MState → MState) (out : String)
    (dirs : List (String × ℚ)) (st : MState) (hne : dirs ≠ []) :
    (csSequence run out dirs st).all (fun p => p.2.im == 0) = true := by
  induction dirs generalizing st with
  | nil => exact absurd rfl hne
  | cons d ds ih =>
    cases ds with
    | nil => exact clearIm_all_zero _
    | cons d2 ds2 => exact ih _ (List.cons_ne_nil d2 ds2)

/-- Witness for C4: two complex-step cycles on a concrete two-variable state
leave every imaginary part exactly zero. -/
theorem cs_cleanup_witness :
    (csSequence demoRun "y" [("x", 1), ("x", 2)]
      [("x", ⟨3, 0⟩), ("y", ⟨9, 0⟩)]).all (fun p => p.2.im == 0) = true :=
  cs_cleanup demoRun "y" [("x", 1), ("x", 2)] [("x", ⟨3, 0⟩), ("y", ⟨9, 0⟩)]
    (List.cons_ne_nil _ _)

theorem filter_range_single (n c : Nat) (p : Nat → Bool) (hc : c < n)
    (hpc : p c = true) (hother : ∀ i, i < n → i ≠ c → p i = false) :
    (List.range n).filter p = [c] := by
  induction n with
  | zero => omega
  | succ n ih =>
    rw [List.range_succ, List.filter_append]
    by_cases hcn : c = n
    · subst hcn
      have hnil : (List.range c).filter p = [] := by
        rw [List.filter_eq_nil_iff]
        intro i hi
        rw [hother i (Nat.lt_succ_of_lt (List.mem_range.mp hi))
          (Nat.ne_of_lt (List.mem_range.mp hi))]
        exact Bool.false_ne_true
      rw [hnil, List.nil_append, List.filter_cons, hpc]
      rfl
    · have hcl : c < n := by omega
      rw [ih hcl fun i hi hic => hother i (Nat.lt_succ_of_lt hi) hic]
      have : p n = false := hother n (Nat.lt_succ_self n) fun h => hcn h.symm
      rw [List.filter_cons, this]
      rfl

theorem flatMap_range_single {α : Type} (n r : Nat) (f : Nat → List α)
    (l0 : List α) (hr : r < n) (hfr : f r = l0)
    (hother : ∀ i, i < n → i ≠ r → f i = []) :
    (List.range n).flatMap f = l0 := by
  induction n with
  | zero => omega
  | succ n ih =>
    rw [List.range_succ, List.flatMap_append]
    by_cases hrn : r = n
    · subst hrn
      have hnil : (List.range r).flatMap f = [] := by
        rw [List.flatMap_eq_nil_iff]
        intro i hi
        exact hother i (Nat.lt_succ_of_lt (List.mem_range.mp hi))
          (Nat.ne_of_lt (List.mem_range.mp hi))
      rw [hnil, List.nil_append]
      simp [hfr]
    · have hrl : r < n := by omega
      rw [ih hrl fun i hi hir => hother i (Nat.lt_succ_of_lt hi) hir]
      have : f n = [] := hother n (Nat.lt_succ_self n) fun h => hrn h.symm
      simp [this]

/-- C7: when the declared sparsity pattern omits exactly one entry whose
computed magnitude exceeds the tolerance (every other above-tolerance entry of
the block being declared), the check pass reports exactly one
sparsity-mismatch diagnostic carrying the identifying (of, wrt, row, col)
tuple of the missing entry, renders it in whichever report mode (compact or
verbose) is requested, and returns ok — it never raises on account of the
mismatch. -/
theorem sparsity_mismatch_reported (mode : ReportMode) (ofVar wrtVar : String)
    (J : List (List ℚ)) (nrows ncols : Nat) (declared : List (Nat × Nat))
    (tol : ℚ) (r c : Nat) (hr : r < nrows) (hc : c < ncols)
    (hnd : (r, c) ∉ declared) (hnz : tol < |jEntry J r c|)
    (hothers : ∀ r2, r2 < nrows → ∀ c2, c2 < ncols →
      ((r2, c2) = (r, c) ∨ (r2, c2) ∈ declared ∨ |jEntry J r2 c2| ≤ tol)) :
    checkSparsityPass mode ofVar wrtVar J nrows ncols declared tol =
      .ok ([⟨ofVar, wrtVar, r, c⟩],
        [renderDiag mode ⟨ofVar, wrtVar, r, c⟩]) := by
  have hp : ∀ r2 c2, (decide (tol < |jEntry J r2 c2|) &&
      !(declared.contains (r2, c2))) = true ↔
      tol < |jEntry J r2 c2| ∧ (r2, c2) ∉ declared := by
    intro r2 c2
    rw [Bool.and_eq_true, decide_eq_true_iff, Bool.not_eq_true']
    constructor
    · rintro ⟨h1, h2⟩
      refine ⟨h1, fun hmem => ?_⟩
      rw [(contains_iff_mem declared (r2, c2)).mpr hmem] at h2
      exact Bool.noConfusion h2
    · rintro ⟨h1, h2⟩
      refine ⟨h1, ?_⟩
      cases hc2 : declared.contains (r2, c2)
      · rfl
      · exact absurd ((contains_iff_mem declared (r2, c2)).mp hc2) h2
  have hdiags : sparsityMismatches ofVar wrtVar J nrows ncols declared tol =
      [⟨ofVar, wrtVar, r, c⟩] := by
    unfold sparsityMismatches
    refine flatMap_range_single nrows r _ _ hr ?_ ?_
    · rw [filter_range_single ncols c _ hc ((hp r c).mpr ⟨hnz, hnd⟩) ?_]
      · rfl
      · intro i hi hic
        cases hpc : (decide (tol < |jEntry J r i|) && !(declared.contains (r, i)))
        · rfl
        · exfalso
          rcases (hp r i).mp hpc with ⟨h1, h2⟩
          rcases hothers r hr i hi with heq | hmem | hle
          · exact hic (congrArg Prod.snd heq)
          · exact h2 hmem
          · exact absurd h1 (not_lt.mpr hle)
    · intro i hi hir
      have hnilf : (List.range ncols).filter
          (fun c2 => decide (tol < |jEntry J i c2|) && !(declared.contains (i, c2))) = [] := by
        rw [List.filter_eq_nil_iff]
        intro c2 hc2
        cases hpc : (decide (tol < |jEntry J i c2|) && !(declared.contains (i, c2)))
        · exact fun h => Bool.false_ne_true h
        · exfalso
          rcases (hp i c2).mp hpc with ⟨h1, h2⟩
          rcases hothers i hi c2 (List.mem_range.mp hc2) with heq | hmem | hle
          · exact hir (congrArg Prod.fst heq)
          · exact h2 hmem
          · exact absurd h1 (not_lt.mpr hle)
      rw [hnilf]
      rfl
  rw [checkSparsityPass, hdiags]
  rfl

/-- Witness for C7 on the bad-sparsity test block, in both report modes. -/
theorem sparsity_mismatch_reported_witness :
    checkSparsityPass .compact "y1" "x0" badSparsityJ 3 4 badSparsityDecl 0 =
      .ok ([⟨"y1", "x0", 1, 3⟩], [renderDiag .compact ⟨"y1", "x0", 1, 3⟩]) ∧
    checkSparsityPass .verbose "y1" "x0" badSparsityJ 3 4 badSparsityDecl 0 =
      .ok ([⟨"y1", "x0", 1, 3⟩], [renderDiag .verbose ⟨"y1", "x0", 1, 3⟩]) :=
  ⟨sparsity_mismatch_reported .compact "y1" "x0" badSparsityJ 3 4
      badSparsityDecl 0 1 3 (by decide) (by decide) (by decide) (by decide)
      (by decide),
   sparsity_mismatch_reported .verbose "y1" "x0" badSparsityJ 3 4
      badSparsityDecl 0 1 3 (by decide) (by decide) (by decide) (by decide)
      (by decide)⟩

theorem recordExc_checkRuns (st : GradState) (e : String) :
    (recordExc st e).checkRuns = st.checkRuns := by
  unfold recordExc
  split <;> rfl

theorem recordExc_checkJac (st : GradState) (e : String) :
    (recordExc st e).checkJac = st.checkJac := by
  unfold recordExc
  split <;> rfl

/-- One gradient call never decreases the measure argument used below: if the
per-call check outcome is ok, the count of check entries plus the armed flag
is non-increasing. -/
theorem gradfunc_measure (st : GradState) (env : GradEnv)
    (hok : env.checkTotalJac = .ok ()) :
    (gradfunc st env).1.checkRuns +
        (if (gradfunc st env).1.checkJac = true then 1 else 0) ≤
      st.checkRuns + (if st.checkJac = true then 1 else 0) := by
  obtain ⟨exc, cj, gc, cr⟩ := st
  unfold gradfunc
  cases henv : env.computeTotals with
  | error e =>
    simp only [recordExc_checkRuns, recordExc_checkJac]
    exact le_refl _
  | ok grad =>
    cases cj with
    | false => simp
    | true =>
      cases htj : env.totalJacSome with
      | false => simp
      | true =>
        cases happ : env.hasApproxGroup with
        | true => simp
        | false =>
          rw [hok]
          simp [recordExc_checkRuns, recordExc_checkJac]

theorem gradfunc_approx_skips (st : GradState) (env : GradEnv)
    (happ : env.hasApproxGroup = true) :
    (gradfunc st env).1.checkRuns = st.checkRuns := by
  obtain ⟨exc, cj, gc, cr⟩ := st
  unfold gradfunc
  cases henv : env.computeTotals with
  | error e => simp only [recordExc_checkRuns]
  | ok grad =>
    cases cj with
    | false => simp
    | true =>
      cases htj : env.totalJacSome with
      | false => simp
      | true => simp [happ]

/-- C10 (amended): in the ScipyOptimizeDriver gradient callback, (1) when
computing total derivatives raises, the callback returns an empty array
instead of propagating and records only the first exception; (2) over any
call sequence from the run's initial state in which check_total_jac never
raises, the singular-Jacobian check is entered at most once; (3) the check is
skipped entirely (it never runs) whenever every call sees some group with
approximated derivatives.  (Without the no-raise proviso of (2) the at most
once bound is false — see the counterexample theorem.) -/
theorem gradfunc_contract :
    (∀ st : GradState, ∀ env : GradEnv, ∀ e : String,
      env.computeTotals = .error e →
        (gradfunc st env).2 = [] ∧
        (gradfunc st env).1.excInfo =
          (if st.excInfo = none then some e else st.excInfo)) ∧
    (∀ envs : List GradEnv, (∀ env ∈ envs, env.checkTotalJac = .ok ()) →
      (runGradSeq initGradState envs).checkRuns ≤ 1) ∧
    (∀ envs : List GradEnv, (∀ env ∈ envs, env.hasApproxGroup = true) →
      (runGradSeq initGradState envs).checkRuns = 0) := by
  refine ⟨?_, ?_, ?_⟩
  · intro st env e henv
    unfold gradfunc
    rw [henv]
    refine ⟨rfl, ?_⟩
    show (recordExc st e).excInfo = _
    unfold recordExc
    split <;> simp [*]
  · intro envs hok
    have key : ∀ l : List GradEnv, (∀ env ∈ l, env.checkTotalJac = .ok ()) →
        ∀ st : GradState,
          (runGradSeq st l).checkRuns +
              (if (runGradSeq st l).checkJac = true then 1 else 0) ≤
            st.checkRuns + (if st.checkJac = true then 1 else 0) := by
      intro l
      induction l with
      | nil => intro _ st; exact le_refl _
      | cons env l2 ih =>
        intro hl st
        have h1 := gradfunc_measure st env (hl env (List.mem_cons_self env l2))
        have h2 := ih (fun x hx => hl x (List.mem_cons_of_mem env hx))
          (gradfunc st env).1
        exact le_trans h2 h1
    have h0 := key envs hok initGradState
    have h1 : initGradState.checkRuns +
        (if initGradState.checkJac = true then 1 else 0) = 1 := rfl
    rw [h1] at h0
    exact le_trans (Nat.le_add_right _ _) h0
  · intro envs happ
    have key : ∀ l : List GradEnv, (∀ env ∈ l, env.hasApproxGroup = true) →
        ∀ st : GradState, (runGradSeq st l).checkRuns = st.checkRuns := by
      intro l
      induction l with
      | nil => intro _ st; rfl
      | cons env l2 ih =>
        intro hl st
        have h1 := gradfunc_approx_skips st env (hl env (List.mem_cons_self env l2))
        have h2 := ih (fun x hx => hl x (List.mem_cons_of_mem env hx))
          (gradfunc st env).1
        rw [runGradSeq] at h2 ⊢
        rw [List.foldl_cons, h2, h1]
    exact key envs happ initGradState

/-- Counterexample to C10 as stated: when check_total_jac itself raises, the
armed flag is never cleared (the clearing statement sits after the raising
call inside the try block), so the singular-Jacobian check is entered again
on the next gradient computation: two calls enter the check twice, refuting
the claim that the check runs at most once after the first gradient
computation. -/
theorem gradfunc_check_reruns :
    (runGradSeq initGradState [singularErrorEnv, singularErrorEnv]).checkRuns = 2 ∧
    ¬ (runGradSeq initGradState [singularErrorEnv, singularErrorEnv]).checkRuns ≤ 1 := by
  constructor
  · rfl
  · decide

/-- Witness for the amended C10 contract, instantiating each conjunct at a
concrete call: a raising compute_totals on a state with no recorded
exception, a single well-behaved call, and a single call with an approximated
group. -/
theorem gradfunc_contract_witness :
    ((gradfunc initGradState ⟨.error "boom", false, false, .ok ()⟩).2 = [] ∧
      (gradfunc initGradState ⟨.error "boom", false, false, .ok ()⟩).1.excInfo =
        (if initGradState.excInfo = none then some "boom"
          else initGradState.excInfo)) ∧
    (runGradSeq initGradState [⟨.ok [1], true, false, .ok ()⟩]).checkRuns ≤ 1 ∧
    (runGradSeq initGradState [⟨.ok [1], true, true, .ok ()⟩]).checkRuns = 0 :=
  ⟨gradfunc_contract.1 initGradState ⟨.error "boom", false, false, .ok ()⟩
      "boom" rfl,
   gradfunc_contract.2.1 [⟨.ok [1], true, false, .ok ()⟩]
      (fun env henv => by rw [List.mem_singleton.mp henv]),
   gradfunc_contract.2.2 [⟨.ok [1], true, true, .ok ()⟩]
      (fun env henv => by rw [List.mem_singleton.mp henv])⟩

end OpenMDAO
